import Mathlib

set_option maxHeartbeats 1000000

/-
Verification of the decoration engine in src/main.ts (an Obsidian plugin that
replaces emoji shortcodes and appends folder markers to wiki links).

Shallow embedding conventions:
* editor offsets are character counts (`Nat`); all strings relevant to the
  claims are ASCII, where character offsets and UTF-16 offsets agree;
* JS `null`/`undefined` results are `Option.none` (the truthiness checks
  `if (emoji)` and `if (resolvedPath)` test against `undefined` resp. `null`
  here: neither the emoji map values nor host file paths are empty strings);
* a JS `RegExp` value stored in a rule is opaque to the classifier loop except
  for its `test` method, so `FolderPattern.regex` carries that test function;
* the two scanning regexes of `buildDecorations` are implemented directly:
  neither `[a-zA-Z0-9_+-]` nor `[^\]|]` nor `[^\]]` can match the characters
  that delimit or follow them, so the greedy runs need no backtracking and the
  `exec` loop is a deterministic left-to-right scan.
-/

/-- A selection range (`view.state.selection.main`): absolute offsets;
a collapsed cursor has `from' = to'`. -/
structure SelectionRange where
  from' : Nat
  to' : Nat
deriving DecidableEq, Repr

/-- A decoration instruction pushed by `buildDecorations`:
`Decoration.replace({widget}).range(from, to)` or
`Decoration.widget({widget, side}).range(pos)`. -/
inductive DecorationInstr where
  | replaceSpan (from' to' : Nat) (emoji : String)
  | insertMarker (pos : Nat) (emoji : String) (cssClass : String) (side : Int)
deriving DecidableEq, Repr

/-- Model of JS `hay.startsWith(pat)` on char lists. -/
def startsWithList : List Char → List Char → Bool
  | _, [] => true
  | [], _ :: _ => false
  | c :: cs, p :: ps => c == p && startsWithList cs ps

/-- Model of JS `hay.includes(pat)` on char lists. -/
def containsList (hay pat : List Char) : Bool :=
  match hay with
  | [] => pat.isEmpty
  | c :: rest => startsWithList (c :: rest) pat || containsList rest pat

/-- Model of JS `s.toLowerCase()`; the paths involved are ASCII, on which
JS lowercasing agrees with `Char.toLower` applied characterwise. -/
def strToLower (s : String) : String :=
  String.mk (s.data.map Char.toLower)

/-- JS `hay.includes(pat)` on strings. -/
def strIncludes (hay pat : String) : Bool :=
  containsList hay.data pat.data

/-- Pattern field `folderPattern: string | RegExp` from src/main.ts.  A `RegExp` is opaque
to the classification loop except for its `test` method. -/
inductive FolderPattern where
  | str (s : String)
  | regex (test : String → Bool)

/-- Structure `FolderConfig` from src/main.ts (the `description` field is never read). -/
structure FolderConfig where
  folderPattern : FolderPattern
  emoji : String
  cssClass : Option String

/-- The `for (const [configName, config] of Object.entries(...))` loop body of
`getFolderConfigForPath`, over the ordered entry list, with the path already
normalized to lowercase (computed once before the loop in the source). -/
def classifyAux (normalizedPath : String) : List FolderConfig → Option FolderConfig
  | [] => none
  | config :: rest =>
    match config.folderPattern with
    | FolderPattern.str s =>
      if strIncludes normalizedPath (strToLower s) then some config
      else classifyAux normalizedPath rest
    | FolderPattern.regex t =>
      if t normalizedPath then some config
      else classifyAux normalizedPath rest

/-- Function `getFolderConfigForPath` from src/main.ts.  The source closes over the
module-level `FOLDER_CONFIGURATIONS` record; the ordered entry list is taken
as a parameter here, with `FOLDER_CONFIGURATIONS` below the shipped value. -/
def getFolderConfigForPath (rules : List FolderConfig) (filePath : String) :
    Option FolderConfig :=
  classifyAux (strToLower filePath) rules

/-- The `test` method of the shipped RegExp `/^important\/|\/important\//i`:
case-insensitive (hence the lowering of its own input), matching either the
path start or any interior occurrence of the folder name. -/
def importantTest (s : String) : Bool :=
  startsWithList (strToLower s).data "important/".data ||
  containsList (strToLower s).data "/important/".data

/-- Record `FOLDER_CONFIGURATIONS` from src/main.ts: one enabled rule (the commented
out examples do not exist at runtime). -/
def FOLDER_CONFIGURATIONS : List FolderConfig :=
  [{ folderPattern := FolderPattern.regex importantTest, emoji := "🚀",
     cssClass := some "important-link-emoji" }]

/-- Map `EMOJI_MAPPINGS` from src/main.ts as an ordered key/value list. -/
def EMOJI_MAPPINGS : List (String × String) :=
  [(":+1:", "👍"), (":sunglasses:", "😎"), (":smile:", "😄"), (":heart:", "❤️"),
   (":fire:", "🔥"), (":rocket:", "🚀"), (":star:", "⭐"), (":wink:", "😉"),
   (":thumbsup:", "👍"), (":thumbsdown:", "👎"), (":laugh:", "😂"), (":cry:", "😢")]

/-- The character class `[a-zA-Z0-9_+-]` of the shortcode grammar. -/
def emojiClassChar (c : Char) : Bool :=
  c.isAlphanum || c == '_' || c == '+' || c == '-'

/-- A shortcode match: start index within the line, length, and the full
matched text (the source keys `EMOJI_MAPPINGS` by `fullMatch`, colons
included). -/
structure EmojiMatch where
  idx : Nat
  len : Nat
  token : String
deriving DecidableEq, Repr

/-- Try `/:([a-zA-Z0-9_+-]+):/` at the head of the list; on success return the
inner run (the class excludes `':'`, so the greedy `+` is the maximal run and
needs no backtracking). -/
def emojiMatchAt : List Char → Option (List Char)
  | ':' :: rest =>
    let run := rest.takeWhile emojiClassChar
    if run.isEmpty then none
    else
      match rest.drop run.length with
      | ':' :: _ => some run
      | _ => none
  | _ => none

/-- The global `exec` scan of `/:([a-zA-Z0-9_+-]+):/g` over one line:
left-to-right, each match consumed whole (`lastIndex` moves past its final
colon), one position forward on failure. -/
def emojiScan (cs : List Char) (i : Nat) : List EmojiMatch :=
  match cs with
  | [] => []
  | _ :: rest =>
    match emojiMatchAt cs with
    | some run =>
      { idx := i, len := run.length + 2,
        token := String.mk (':' :: (run ++ [':'])) } ::
        emojiScan (rest.drop (run.length + 1)) (i + (run.length + 2))
    | none => emojiScan rest (i + 1)
termination_by cs.length
decreasing_by
  · simp only [List.length_cons, List.length_drop]
    omega
  · simp only [List.length_cons]
    omega

/-- A wiki-link match: start index, full length (brackets and any display text
included), and the resolvable target (capture group 1). -/
structure LinkMatch where
  idx : Nat
  len : Nat
  target : String
deriving DecidableEq, Repr

/-- The class `[^\]|]` of the link target. -/
def linkTargetChar (c : Char) : Bool :=
  !(c == ']' || c == '|')

/-- The class `[^\]]` of the link display text. -/
def linkDisplayChar (c : Char) : Bool :=
  !(c == ']')

/-- Try `/\[\[([^\]|]+)(\|([^\]]+))?\]\]/` at the head of the list; on success
return the target and the total match length.  The greedy runs stop exactly at
the delimiters excluded from their classes, and when the optional display group
fails the mandatory `]]` cannot match at the `'|'` either, so the translation
is backtracking-free. -/
def linkMatchAt : List Char → Option (List Char × Nat)
  | '[' :: '[' :: rest =>
    let tgt := rest.takeWhile linkTargetChar
    if tgt.isEmpty then none
    else
      match rest.drop tgt.length with
      | '|' :: rest2 =>
        let disp := rest2.takeWhile linkDisplayChar
        if disp.isEmpty then none
        else
          match rest2.drop disp.length with
          | ']' :: ']' :: _ => some (tgt, tgt.length + disp.length + 5)
          | _ => none
      | ']' :: ']' :: _ => some (tgt, tgt.length + 4)
      | _ => none
  | _ => none

/-- The global `exec` scan of the link regex over one line. -/
def linkScan (cs : List Char) (i : Nat) : List LinkMatch :=
  match cs with
  | [] => []
  | _ :: rest =>
    match linkMatchAt cs with
    | some (tgt, len) =>
      { idx := i, len := len, target := String.mk tgt } ::
        linkScan (rest.drop (len - 1)) (i + len)
    | none => linkScan rest (i + 1)
termination_by cs.length
decreasing_by
  · simp only [List.length_cons, List.length_drop]
    omega
  · simp only [List.length_cons]
    omega

/-- Predicate `isCursorInRange` from src/main.ts, verbatim. -/
def isCursorInRange (selection : SelectionRange) (from' to' : Nat) : Bool :=
  (decide (selection.from' ≥ from') && decide (selection.from' ≤ to')) ||
  (decide (selection.to' ≥ from') && decide (selection.to' ≤ to')) ||
  (decide (selection.from' ≤ from') && decide (selection.to' ≥ to'))

/-- The body of the emoji while-loop for one match: look the full matched text
up in the map (`undefined` for an unknown token), compute the absolute span,
and push a replacement unless the cursor occupies the span. -/
def emojiInstr (map : List (String × String)) (selection : SelectionRange)
    (lineFrom : Nat) (m : EmojiMatch) : Option DecorationInstr :=
  match map.lookup m.token with
  | some emoji =>
    if isCursorInRange selection (lineFrom + m.idx) (lineFrom + m.idx + m.len) then none
    else some (DecorationInstr.replaceSpan (lineFrom + m.idx) (lineFrom + m.idx + m.len) emoji)
  | none => none

/-- The body of the link while-loop for one match: skip when the cursor
occupies the span, otherwise resolve the target (`null` becomes `none`),
classify the resolved path, and push a side-1 widget at the link's end. -/
def linkInstr (rules : List FolderConfig) (selection : SelectionRange)
    (resolveFilePath : String → Option String) (lineFrom : Nat) (m : LinkMatch) :
    Option DecorationInstr :=
  if isCursorInRange selection (lineFrom + m.idx) (lineFrom + m.idx + m.len) then none
  else
    match resolveFilePath m.target with
    | some resolvedPath =>
      match getFolderConfigForPath rules resolvedPath with
      | some folderConfig =>
        some (DecorationInstr.insertMarker (lineFrom + m.idx + m.len) folderConfig.emoji
          (folderConfig.cssClass.getD "folder-link-emoji") 1)
      | none => none
    | none => none

/-- The emoji while-loop of `buildDecorations` over one line: the `exec` scan
interleaved with the pushes of the loop body. -/
def emojiPass (map : List (String × String)) (selection : SelectionRange)
    (lineFrom : Nat) (cs : List Char) (i : Nat) : List DecorationInstr :=
  match cs with
  | [] => []
  | _ :: rest =>
    match emojiMatchAt cs with
    | some run =>
      let tail := emojiPass map selection lineFrom
        (rest.drop (run.length + 1)) (i + (run.length + 2))
      match emojiInstr map selection lineFrom
          { idx := i, len := run.length + 2,
            token := String.mk (':' :: (run ++ [':'])) } with
      | some d => d :: tail
      | none => tail
    | none => emojiPass map selection lineFrom rest (i + 1)
termination_by cs.length
decreasing_by
  · simp only [List.length_cons, List.length_drop]
    omega
  · simp only [List.length_cons]
    omega

/-- The link while-loop of `buildDecorations` over one line. -/
def linkPass (rules : List FolderConfig) (selection : SelectionRange)
    (resolveFilePath : String → Option String) (lineFrom : Nat)
    (cs : List Char) (i : Nat) : List DecorationInstr :=
  match cs with
  | [] => []
  | _ :: rest =>
    match linkMatchAt cs with
    | some (tgt, len) =>
      let tail := linkPass rules selection resolveFilePath lineFrom
        (rest.drop (len - 1)) (i + len)
      match linkInstr rules selection resolveFilePath lineFrom
          { idx := i, len := len, target := String.mk tgt } with
      | some d => d :: tail
      | none => tail
    | none => linkPass rules selection resolveFilePath lineFrom rest (i + 1)
termination_by cs.length
decreasing_by
  · simp only [List.length_cons, List.length_drop]
    omega
  · simp only [List.length_cons]
    omega

/-- One iteration of the `for (let i = 1; i <= doc.lines; i++)` loop of
`buildDecorations`: the emoji pass followed by the link pass over the same
line, with `lineFrom` the line's absolute start offset. -/
def buildLine (map : List (String × String)) (rules : List FolderConfig)
    (selection : SelectionRange) (resolveFilePath : String → Option String)
    (lineFrom : Nat) (text : String) : List DecorationInstr :=
  emojiPass map selection lineFrom text.data 0 ++
    linkPass rules selection resolveFilePath lineFrom text.data 0

/-- The line loop of `buildDecorations` over the remaining lines of the
document; consecutive lines are separated by one newline character. -/
def buildDoc (map : List (String × String)) (rules : List FolderConfig)
    (selection : SelectionRange) (resolveFilePath : String → Option String) :
    Nat → List String → List DecorationInstr
  | _, [] => []
  | lineFrom, text :: restLines =>
    buildLine map rules selection resolveFilePath lineFrom text ++
      buildDoc map rules selection resolveFilePath (lineFrom + text.length + 1) restLines

/-- Function `buildDecorations` from src/main.ts, over a document given as its list of
lines (the first line starts at absolute offset 0). -/
def buildDecorations (map : List (String × String)) (rules : List FolderConfig)
    (selection : SelectionRange) (resolveFilePath : String → Option String)
    (docLines : List String) : List DecorationInstr :=
  buildDoc map rules selection resolveFilePath 0 docLines

/-- Matching predicate of the Path Classifier as specified in spec §4.2, with
the regex applied to the lowered path exactly as the source does. -/
def ruleMatches (filePath : String) (config : FolderConfig) : Bool :=
  match config.folderPattern with
  | FolderPattern.str s => strIncludes (strToLower filePath) (strToLower s)
  | FolderPattern.regex t => t (strToLower filePath)

/-- Matching predicate as claim C1 words it: substring rules on the lowered
path, but the regex applied to the ORIGINAL (non-lowered) path. -/
def ruleMatchesOriginalPath (filePath : String) (config : FolderConfig) : Bool :=
  match config.folderPattern with
  | FolderPattern.str s => strIncludes (strToLower filePath) (strToLower s)
  | FolderPattern.regex t => t filePath

/-- Leftmost offset touched by an instruction. -/
def instrLo : DecorationInstr → Nat
  | DecorationInstr.replaceSpan f _ _ => f
  | DecorationInstr.insertMarker p _ _ _ => p

/-- Rightmost offset touched by an instruction (exclusive for replacements;
a widget occupies no character, so its span is the empty range at its
position). -/
def instrHi : DecorationInstr → Nat
  | DecorationInstr.replaceSpan _ t _ => t
  | DecorationInstr.insertMarker p _ _ _ => p

/-- The spans of two instructions do not overlap: one ends (inclusively for
the boundary) before the other starts.  In particular no widget position lies
strictly inside a replaced range and no two replaced ranges share a
character. -/
def SpanDisjoint (d1 d2 : DecorationInstr) : Prop :=
  instrHi d1 ≤ instrLo d2 ∨ instrHi d2 ≤ instrLo d1

/-- Model of a case-sensitive JS RegExp `/^IMPORTANT\//` (no `i` flag), a
legal value for the `folderPattern: string | RegExp` field. -/
def caseSensitiveRegexRule : FolderConfig :=
  { folderPattern := FolderPattern.regex (fun s => startsWithList s.data "IMPORTANT/".data),
    emoji := "🚀", cssClass := none }

/-- A rule whose pattern text is slash-delimited with the regex-invalid body
`(`; under spec §4.2 this is a regex-style rule with malformed syntax, while
the source treats every string pattern as a literal substring. -/
def malformedRegexStyleRule : FolderConfig :=
  { folderPattern := FolderPattern.str "/(/", emoji := "📦", cssClass := none }

theorem char_toNat_ofNat_of_valid {n : Nat} (h : n.isValidChar) :
    (Char.ofNat n).toNat = n := by
  rw [Char.ofNat, dif_pos h]
  rfl

theorem char_toLower_toLower (c : Char) : c.toLower.toLower = c.toLower := by
  simp only [Char.toLower]
  by_cases h : c.toNat ≥ 65 ∧ c.toNat ≤ 90
  · rw [if_pos h]
    have hv : (c.toNat + 32).isValidChar := Or.inl (by omega)
    have h1 : (Char.ofNat (c.toNat + 32)).toNat = c.toNat + 32 :=
      char_toNat_ofNat_of_valid hv
    rw [if_neg]
    omega
  · rw [if_neg h, if_neg h]

theorem strToLower_strToLower (s : String) :
    strToLower (strToLower s) = strToLower s := by
  unfold strToLower
  refine congrArg String.mk ?_
  show ((s.data.map Char.toLower).map Char.toLower) = s.data.map Char.toLower
  rw [List.map_map]
  refine List.map_congr_left ?_
  intro c _
  exact char_toLower_toLower c

theorem drop_getElem_eq {α : Type} (l : List α) (n m : Nat) :
    (l.drop n)[m]? = l[n + m]? := by
  induction n generalizing l with
  | zero => simp
  | succ n ih =>
    cases l with
    | nil => simp
    | cons a t =>
      rw [List.drop_succ_cons, ih]
      have : n + 1 + m = (n + m) + 1 := by omega
      rw [this, List.getElem?_cons_succ]

theorem takeWhile_getElem {α : Type} (p : α → Bool) :
    ∀ (l : List α) (k : Nat), k < (l.takeWhile p).length →
      ∃ c, l[k]? = some c ∧ p c = true := by
  intro l
  induction l with
  | nil => intro k hk; simp at hk
  | cons a t ih =>
    intro k hk
    by_cases hp : p a
    · rw [List.takeWhile_cons_of_pos hp, List.length_cons] at hk
      cases k with
      | zero => exact ⟨a, by simp, hp⟩
      | succ k' =>
        obtain ⟨c, hc, hpc⟩ := ih k' (by omega)
        exact ⟨c, by simpa using hc, hpc⟩
    · rw [List.takeWhile_cons_of_neg hp] at hk
      simp at hk

theorem emojiPass_eq_filterMap (map : List (String × String)) (selection : SelectionRange)
    (lineFrom : Nat) : ∀ (cs : List Char) (i : Nat),
    emojiPass map selection lineFrom cs i =
      (emojiScan cs i).filterMap (emojiInstr map selection lineFrom) := by
  intro cs i
  induction cs, i using emojiScan.induct with
  | case1 i => simp [emojiScan, emojiPass]
  | case2 c rest i run h ih =>
    rw [emojiScan, emojiPass]
    simp only [h, List.filterMap_cons]
    rw [ih]
    split <;> simp [*]
  | case3 c rest i h ih =>
    rw [emojiScan, emojiPass]
    simp only [h]
    exact ih

theorem linkPass_eq_filterMap (rules : List FolderConfig) (selection : SelectionRange)
    (resolveFilePath : String → Option String) (lineFrom : Nat) :
    ∀ (cs : List Char) (i : Nat),
    linkPass rules selection resolveFilePath lineFrom cs i =
      (linkScan cs i).filterMap (linkInstr rules selection resolveFilePath lineFrom) := by
  intro cs i
  induction cs, i using linkScan.induct with
  | case1 i => simp [linkScan, linkPass]
  | case2 c rest i tgt len h ih =>
    rw [linkScan, linkPass]
    simp only [h, List.filterMap_cons]
    rw [ih]
    split <;> simp [*]
  | case3 c rest i h ih =>
    rw [linkScan, linkPass]
    simp only [h]
    exact ih

theorem emojiMatchAt_inv {cs run : List Char} (h : emojiMatchAt cs = some run) :
    ∃ rest, cs = ':' :: rest ∧ run = rest.takeWhile emojiClassChar ∧ run ≠ [] ∧
      ∃ tail, rest.drop run.length = ':' :: tail := by
  rw [emojiMatchAt.eq_def] at h
  split at h
  · rename_i rest
    refine ⟨rest, rfl, ?_⟩
    by_cases he : (rest.takeWhile emojiClassChar).isEmpty = true
    · rw [if_pos he] at h
      exact absurd h (by simp)
    · rw [if_neg he] at h
      split at h
      · rename_i tail heq
        injection h with h'
        refine ⟨h'.symm, ?_, tail, ?_⟩
        · rw [← h']
          intro hnil
          rw [hnil] at he
          simp at he
        · rw [← h']
          exact heq
      · exact absurd h (by simp)
  · exact absurd h (by simp)

theorem linkMatchAt_inv {cs tgt : List Char} {len : Nat}
    (h : linkMatchAt cs = some (tgt, len)) :
    ∃ rest, cs = '[' :: '[' :: rest ∧ tgt = rest.takeWhile linkTargetChar ∧ tgt ≠ [] ∧
      ((∃ tail, rest.drop tgt.length = ']' :: ']' :: tail ∧ len = tgt.length + 4) ∨
       (∃ rest2 tail, rest.drop tgt.length = '|' :: rest2 ∧
          (rest2.takeWhile linkDisplayChar) ≠ [] ∧
          rest2.drop (rest2.takeWhile linkDisplayChar).length = ']' :: ']' :: tail ∧
          len = tgt.length + (rest2.takeWhile linkDisplayChar).length + 5)) := by
  rw [linkMatchAt.eq_def] at h
  split at h
  · rename_i rest
    refine ⟨rest, rfl, ?_⟩
    by_cases he : (rest.takeWhile linkTargetChar).isEmpty = true
    · rw [if_pos he] at h
      exact absurd h (by simp)
    · rw [if_neg he] at h
      have hne : rest.takeWhile linkTargetChar ≠ [] := by
        intro hnil
        rw [hnil] at he
        simp at he
      split at h
      · rename_i rest2 hdrop
        by_cases hd : (rest2.takeWhile linkDisplayChar).isEmpty = true
        · rw [if_pos hd] at h
          exact absurd h (by simp)
        · rw [if_neg hd] at h
          split at h
          · rename_i tail hdrop2
            injection h with h'
            injection h' with h1 h2
            subst h1
            subst h2
            refine ⟨rfl, hne, Or.inr ⟨rest2, tail, hdrop, ?_, hdrop2, rfl⟩⟩
            intro hnil
            rw [hnil] at hd
            simp at hd
          · exact absurd h (by simp)
      · rename_i tail hdrop
        injection h with h'
        injection h' with h1 h2
        subst h1
        subst h2
        exact ⟨rfl, hne, Or.inl ⟨tail, hdrop, rfl⟩⟩
      · exact absurd h (by simp)
  · exact absurd h (by simp)

theorem emojiScan_inv : ∀ (cs : List Char) (i : Nat),
    (∀ m ∈ emojiScan cs i, ∃ d, m.idx = i + d ∧ 3 ≤ m.len ∧
        m.idx + m.len ≤ i + cs.length ∧
        ∀ k, k < m.len → ∃ c, cs[d + k]? = some c ∧ c ≠ ']') ∧
    (emojiScan cs i).Pairwise (fun a b => a.idx + a.len ≤ b.idx) := by
  intro cs i
  induction cs, i using emojiScan.induct with
  | case1 i => simp [emojiScan]
  | case2 i hd rest run h ih =>
    obtain ⟨rest', hcs, hrun, hne, tail, hdrop⟩ := emojiMatchAt_inv h
    obtain ⟨hc, hrest⟩ : hd = ':' ∧ rest = rest' := by
      cases hcs
      exact ⟨rfl, rfl⟩
    subst hc
    subst hrest
    have hrunlen : run.length + 1 ≤ rest.length := by
      have := congrArg List.length hdrop
      rw [List.length_drop] at this
      simp only [List.length_cons] at this
      omega
    have hrunpos : 1 ≤ run.length := by
      cases run with
      | nil => exact absurd rfl hne
      | cons _ _ => simp
    rw [emojiScan]
    simp only [h]
    obtain ⟨ihmem, ihpw⟩ := ih
    constructor
    · intro m hm
      rcases List.mem_cons.mp hm with hm0 | hmtail
      · subst hm0
        dsimp only
        refine ⟨0, by omega, by omega, ?_, ?_⟩
        · simp only [List.length_cons]
          omega
        · intro k hk
          simp only [Nat.zero_add]
          rcases Nat.lt_trichotomy k (run.length + 1) with hlt | heqk | hgt
          · cases k with
            | zero => exact ⟨':', by simp, by decide⟩
            | succ k' =>
              have hk' : k' < run.length := by omega
              rw [hrun] at hk'
              obtain ⟨ch, hch, hcls⟩ := takeWhile_getElem emojiClassChar rest k' hk'
              refine ⟨ch, by simpa using hch, ?_⟩
              intro hbad
              rw [hbad] at hcls
              exact absurd hcls (by decide)
          · subst heqk
            have : rest[run.length]? = some ':' := by
              have h0 : (rest.drop run.length)[0]? = rest[run.length + 0]? :=
                drop_getElem_eq rest run.length 0
              rw [hdrop] at h0
              simpa using h0.symm
            refine ⟨':', ?_, by decide⟩
            rw [List.getElem?_cons_succ]
            exact this
          · omega
      · obtain ⟨d', hidx, hlen3, hbound, hchars⟩ := ihmem m hmtail
        refine ⟨run.length + 2 + d', by omega, hlen3, ?_, ?_⟩
        · rw [List.length_drop] at hbound
          simp only [List.length_cons]
          omega
        · intro k hk
          obtain ⟨ch, hch, hne'⟩ := hchars k hk
          refine ⟨ch, ?_, hne'⟩
          rw [drop_getElem_eq] at hch
          have harith : run.length + 2 + d' + k = (run.length + 1 + (d' + k)) + 1 := by
            omega
          rw [harith, List.getElem?_cons_succ]
          exact hch
    · rw [List.pairwise_cons]
      refine ⟨?_, ihpw⟩
      intro m hmtail
      obtain ⟨d', hidx, _, _, _⟩ := ihmem m hmtail
      dsimp only
      omega
  | case3 i hd rest h ih =>
    rw [emojiScan]
    simp only [h]
    obtain ⟨ihmem, ihpw⟩ := ih
    refine ⟨?_, ihpw⟩
    intro m hm
    obtain ⟨d', hidx, hlen3, hbound, hchars⟩ := ihmem m hm
    refine ⟨d' + 1, by omega, hlen3, ?_, ?_⟩
    · simp only [List.length_cons]
      omega
    · intro k hk
      obtain ⟨ch, hch, hne'⟩ := hchars k hk
      refine ⟨ch, ?_, hne'⟩
      have harith : d' + 1 + k = (d' + k) + 1 := by omega
      rw [harith, List.getElem?_cons_succ]
      exact hch

theorem cons_cons_getElem {α : Type} (a b : α) (l : List α) (n : Nat) :
    (a :: b :: l)[n + 2]? = l[n]? := by
  have e : n + 2 = (n + 1) + 1 := by omega
  rw [e, List.getElem?_cons_succ, List.getElem?_cons_succ]

theorem linkScan_inv : ∀ (cs : List Char) (i : Nat),
    (∀ m ∈ linkScan cs i, ∃ d, m.idx = i + d ∧ 5 ≤ m.len ∧
        m.idx + m.len ≤ i + cs.length ∧
        cs[d + (m.len - 1)]? = some ']') ∧
    (linkScan cs i).Pairwise (fun a b => a.idx + a.len ≤ b.idx) := by
  intro cs i
  induction cs, i using linkScan.induct with
  | case1 i => simp [linkScan]
  | case2 i hd rest tgt len h ih =>
    obtain ⟨rest', hcs, htgt, hne, hcase⟩ := linkMatchAt_inv h
    obtain ⟨h1, h2⟩ : hd = '[' ∧ rest = '[' :: rest' := by
      cases hcs
      exact ⟨rfl, rfl⟩
    subst h1
    subst h2
    have htgtpos : 1 ≤ tgt.length := by
      cases tgt with
      | nil => exact absurd rfl hne
      | cons _ _ => simp
    have hfacts : 5 ≤ len ∧ len ≤ rest'.length + 2 ∧
        ('[' :: '[' :: rest')[len - 1]? = some ']' := by
      rcases hcase with ⟨tail, hdrop, hlen⟩ | ⟨rest2, tail, hdrop, hdne, hdrop2, hlen⟩
      · have hL := congrArg List.length hdrop
        rw [List.length_drop] at hL
        simp only [List.length_cons] at hL
        subst hlen
        refine ⟨by omega, by omega, ?_⟩
        have e1 : tgt.length + 4 - 1 = (tgt.length + 1) + 2 := by omega
        rw [e1, cons_cons_getElem]
        rw [← drop_getElem_eq rest' tgt.length 1, hdrop]
        simp
      · have hdpos : 1 ≤ (rest2.takeWhile linkDisplayChar).length := by
          cases hh : rest2.takeWhile linkDisplayChar with
          | nil => exact absurd hh hdne
          | cons _ _ => simp [hh]
        have hL := congrArg List.length hdrop
        rw [List.length_drop] at hL
        simp only [List.length_cons] at hL
        have hL2 := congrArg List.length hdrop2
        rw [List.length_drop] at hL2
        simp only [List.length_cons] at hL2
        subst hlen
        refine ⟨by omega, by omega, ?_⟩
        have e1 : tgt.length + (rest2.takeWhile linkDisplayChar).length + 5 - 1 =
            (tgt.length + ((rest2.takeWhile linkDisplayChar).length + 2)) + 2 := by
          omega
        rw [e1, cons_cons_getElem]
        rw [← drop_getElem_eq rest' tgt.length ((rest2.takeWhile linkDisplayChar).length + 2),
          hdrop]
        have e2 : (rest2.takeWhile linkDisplayChar).length + 2 =
            ((rest2.takeWhile linkDisplayChar).length + 1) + 1 := by
          omega
        rw [e2, List.getElem?_cons_succ]
        rw [← drop_getElem_eq rest2 (rest2.takeWhile linkDisplayChar).length 1, hdrop2]
        simp
    obtain ⟨hlen5, hlenbound, hchar⟩ := hfacts
    rw [linkScan]
    simp only [h]
    obtain ⟨ihmem, ihpw⟩ := ih
    constructor
    · intro m hm
      rcases List.mem_cons.mp hm with hm0 | hmtail
      · subst hm0
        dsimp only
        refine ⟨0, by omega, hlen5, ?_, ?_⟩
        · simp only [List.length_cons]
          omega
        · simpa using hchar
      · obtain ⟨d', hidx, hlen3, hbound, hchar'⟩ := ihmem m hmtail
        refine ⟨len + d', by omega, hlen3, ?_, ?_⟩
        · rw [List.length_drop] at hbound
          simp only [List.length_cons] at hbound ⊢
          omega
        · rw [drop_getElem_eq] at hchar'
          have e3 : len + d' + (m.len - 1) = ((len - 1) + (d' + (m.len - 1))) + 1 := by
            omega
          rw [e3, List.getElem?_cons_succ]
          exact hchar'
    · rw [List.pairwise_cons]
      refine ⟨?_, ihpw⟩
      intro m hmtail
      obtain ⟨d', hidx, _, _, _⟩ := ihmem m hmtail
      dsimp only
      omega
  | case3 i hd rest h ih =>
    rw [linkScan]
    simp only [h]
    obtain ⟨ihmem, ihpw⟩ := ih
    refine ⟨?_, ihpw⟩
    intro m hm
    obtain ⟨d', hidx, hlen3, hbound, hchar'⟩ := ihmem m hm
    refine ⟨d' + 1, by omega, hlen3, ?_, ?_⟩
    · simp only [List.length_cons]
      omega
    · have e4 : d' + 1 + (m.len - 1) = (d' + (m.len - 1)) + 1 := by omega
      rw [e4, List.getElem?_cons_succ]
      exact hchar'

theorem pairwise_mem_rel {α : Type} {R : α → α → Prop} {l : List α}
    (hp : l.Pairwise R) {a b : α} (ha : a ∈ l) (hb : b ∈ l) :
    a = b ∨ R a b ∨ R b a := by
  induction l with
  | nil => simp at ha
  | cons x t ih =>
    rw [List.pairwise_cons] at hp
    rcases List.mem_cons.mp ha with rfl | ha'
    · rcases List.mem_cons.mp hb with rfl | hb'
      · exact Or.inl rfl
      · exact Or.inr (Or.inl (hp.1 b hb'))
    · rcases List.mem_cons.mp hb with rfl | hb'
      · exact Or.inr (Or.inr (hp.1 a ha'))
      · exact ih hp.2 ha' hb'

theorem emojiInstr_some {map : List (String × String)} {selection : SelectionRange}
    {lineFrom : Nat} {m : EmojiMatch} {d : DecorationInstr}
    (h : emojiInstr map selection lineFrom m = some d) :
    ∃ e, map.lookup m.token = some e ∧
      isCursorInRange selection (lineFrom + m.idx) (lineFrom + m.idx + m.len) = false ∧
      d = DecorationInstr.replaceSpan (lineFrom + m.idx) (lineFrom + m.idx + m.len) e := by
  unfold emojiInstr at h
  cases hl : map.lookup m.token with
  | none => rw [hl] at h; cases h
  | some e =>
    rw [hl] at h
    dsimp only at h
    by_cases hc : isCursorInRange selection (lineFrom + m.idx) (lineFrom + m.idx + m.len) = true
    · rw [if_pos hc] at h
      cases h
    · rw [if_neg hc] at h
      injection h with h'
      exact ⟨e, rfl, by simpa using hc, h'.symm⟩

theorem linkInstr_some {rules : List FolderConfig} {selection : SelectionRange}
    {resolveFilePath : String → Option String} {lineFrom : Nat} {m : LinkMatch}
    {d : DecorationInstr}
    (h : linkInstr rules selection resolveFilePath lineFrom m = some d) :
    isCursorInRange selection (lineFrom + m.idx) (lineFrom + m.idx + m.len) = false ∧
    ∃ p cfg, resolveFilePath m.target = some p ∧
      getFolderConfigForPath rules p = some cfg ∧
      d = DecorationInstr.insertMarker (lineFrom + m.idx + m.len) cfg.emoji
            (cfg.cssClass.getD "folder-link-emoji") 1 := by
  unfold linkInstr at h
  by_cases hc : isCursorInRange selection (lineFrom + m.idx) (lineFrom + m.idx + m.len) = true
  · rw [if_pos hc] at h
    cases h
  · rw [if_neg hc] at h
    refine ⟨by simpa using hc, ?_⟩
    cases hr : resolveFilePath m.target with
    | none => rw [hr] at h; cases h
    | some p =>
      rw [hr] at h
      dsimp only at h
      cases hg : getFolderConfigForPath rules p with
      | none => rw [hg] at h; cases h
      | some cfg =>
        rw [hg] at h
        dsimp only at h
        injection h with h'
        exact ⟨p, cfg, rfl, hg, h'.symm⟩

theorem string_length_data (s : String) : s.data.length = s.length := rfl

theorem emojiPass_mem {map : List (String × String)} {selection : SelectionRange}
    {lineFrom : Nat} {cs : List Char} {i : Nat} {d : DecorationInstr} :
    d ∈ emojiPass map selection lineFrom cs i ↔
      ∃ m ∈ emojiScan cs i, emojiInstr map selection lineFrom m = some d := by
  rw [emojiPass_eq_filterMap]
  exact List.mem_filterMap

theorem linkPass_mem {rules : List FolderConfig} {selection : SelectionRange}
    {resolveFilePath : String → Option String} {lineFrom : Nat} {cs : List Char}
    {i : Nat} {d : DecorationInstr} :
    d ∈ linkPass rules selection resolveFilePath lineFrom cs i ↔
      ∃ m ∈ linkScan cs i, linkInstr rules selection resolveFilePath lineFrom m = some d := by
  rw [linkPass_eq_filterMap]
  exact List.mem_filterMap

theorem buildLine_bounds {map : List (String × String)} {rules : List FolderConfig}
    {selection : SelectionRange} {resolveFilePath : String → Option String}
    {lineFrom : Nat} {text : String} {d : DecorationInstr}
    (hd : d ∈ buildLine map rules selection resolveFilePath lineFrom text) :
    lineFrom ≤ instrLo d ∧ instrLo d ≤ instrHi d ∧ instrHi d ≤ lineFrom + text.length := by
  unfold buildLine at hd
  rcases List.mem_append.mp hd with hE | hL
  · obtain ⟨m, hm, hinstr⟩ := emojiPass_mem.mp hE
    obtain ⟨e, _, _, rfl⟩ := emojiInstr_some hinstr
    obtain ⟨dd, hidx, hlen3, hbound, _⟩ := (emojiScan_inv text.data 0).1 m hm
    rw [string_length_data] at hbound
    simp only [instrLo, instrHi]
    omega
  · obtain ⟨m, hm, hinstr⟩ := linkPass_mem.mp hL
    obtain ⟨_, p, cfg, _, _, rfl⟩ := linkInstr_some hinstr
    obtain ⟨dd, hidx, hlen5, hbound, _⟩ := (linkScan_inv text.data 0).1 m hm
    rw [string_length_data] at hbound
    simp only [instrLo, instrHi]
    omega

theorem buildLine_pairwise (map : List (String × String)) (rules : List FolderConfig)
    (selection : SelectionRange) (resolveFilePath : String → Option String)
    (lineFrom : Nat) (text : String) :
    (buildLine map rules selection resolveFilePath lineFrom text).Pairwise SpanDisjoint := by
  unfold buildLine
  rw [List.pairwise_append]
  refine ⟨?_, ?_, ?_⟩
  · rw [emojiPass_eq_filterMap]
    refine List.Pairwise.filterMap _ ?_ (emojiScan_inv text.data 0).2
    intro a b hR d hd d' hd'
    obtain ⟨e, _, _, rfl⟩ := emojiInstr_some (Option.mem_def.mp hd)
    obtain ⟨e', _, _, rfl⟩ := emojiInstr_some (Option.mem_def.mp hd')
    left
    simp only [instrLo, instrHi]
    omega
  · rw [linkPass_eq_filterMap]
    refine List.Pairwise.filterMap _ ?_ (linkScan_inv text.data 0).2
    intro a b hR d hd d' hd'
    obtain ⟨_, p, cfg, _, _, rfl⟩ := linkInstr_some (Option.mem_def.mp hd)
    obtain ⟨_, p', cfg', _, _, rfl⟩ := linkInstr_some (Option.mem_def.mp hd')
    left
    simp only [instrLo, instrHi]
    omega
  · intro d hd d' hd'
    obtain ⟨m, hm, hinstr⟩ := emojiPass_mem.mp hd
    obtain ⟨e, _, _, rfl⟩ := emojiInstr_some hinstr
    obtain ⟨m', hm', hinstr'⟩ := linkPass_mem.mp hd'
    obtain ⟨_, p, cfg, _, _, rfl⟩ := linkInstr_some hinstr'
    obtain ⟨de, hde, hlen3, _, hchars⟩ := (emojiScan_inv text.data 0).1 m hm
    obtain ⟨dl, hdl, hlen5, _, hchar⟩ := (linkScan_inv text.data 0).1 m' hm'
    by_contra hno
    rw [SpanDisjoint] at hno
    push_neg at hno
    simp only [instrLo, instrHi] at hno
    obtain ⟨hno1, hno2⟩ := hno
    have hk : m.idx < m'.idx + m'.len ∧ m'.idx + m'.len < m.idx + m.len := by omega
    obtain ⟨ch, hch, hchne⟩ := hchars (m'.idx + m'.len - 1 - m.idx) (by omega)
    have heq : de + (m'.idx + m'.len - 1 - m.idx) = dl + (m'.len - 1) := by omega
    rw [heq, hchar] at hch
    injection hch with hch'
    exact hchne hch'.symm

theorem buildDoc_lo {map : List (String × String)} {rules : List FolderConfig}
    {selection : SelectionRange} {resolveFilePath : String → Option String} :
    ∀ (docLines : List String) (lineFrom : Nat) (d : DecorationInstr),
    d ∈ buildDoc map rules selection resolveFilePath lineFrom docLines →
      lineFrom ≤ instrLo d := by
  intro docLines
  induction docLines with
  | nil => intro lf d hd; simp [buildDoc] at hd
  | cons text rest ih =>
    intro lf d hd
    simp only [buildDoc] at hd
    rcases List.mem_append.mp hd with h1 | h2
    · exact (buildLine_bounds h1).1
    · have := ih (lf + text.length + 1) d h2
      omega

theorem buildDoc_pairwise (map : List (String × String)) (rules : List FolderConfig)
    (selection : SelectionRange) (resolveFilePath : String → Option String) :
    ∀ (docLines : List String) (lineFrom : Nat),
    (buildDoc map rules selection resolveFilePath lineFrom docLines).Pairwise SpanDisjoint := by
  intro docLines
  induction docLines with
  | nil => intro lf; simp [buildDoc]
  | cons text rest ih =>
    intro lf
    simp only [buildDoc]
    rw [List.pairwise_append]
    refine ⟨buildLine_pairwise map rules selection resolveFilePath lf text, ih _, ?_⟩
    intro d hd d' hd'
    have h1 := buildLine_bounds hd
    have h2 := buildDoc_lo rest (lf + text.length + 1) d' hd'
    left
    omega

theorem emojiScan_idx_inj {cs : List Char} {i : Nat} {m m' : EmojiMatch}
    (hm : m ∈ emojiScan cs i) (hm' : m' ∈ emojiScan cs i) (h : m.idx = m'.idx) :
    m = m' := by
  obtain ⟨_, _, hl, _, _⟩ := (emojiScan_inv cs i).1 m hm
  obtain ⟨_, _, hl', _, _⟩ := (emojiScan_inv cs i).1 m' hm'
  rcases pairwise_mem_rel (emojiScan_inv cs i).2 hm hm' with heq | hR | hR
  · exact heq
  · exact absurd hR (by omega)
  · exact absurd hR (by omega)

theorem linkScan_end_inj {cs : List Char} {i : Nat} {m m' : LinkMatch}
    (hm : m ∈ linkScan cs i) (hm' : m' ∈ linkScan cs i)
    (h : m.idx + m.len = m'.idx + m'.len) : m = m' := by
  obtain ⟨_, _, hl, _, _⟩ := (linkScan_inv cs i).1 m hm
  obtain ⟨_, _, hl', _, _⟩ := (linkScan_inv cs i).1 m' hm'
  rcases pairwise_mem_rel (linkScan_inv cs i).2 hm hm' with heq | hR | hR
  · exact heq
  · exact absurd hR (by omega)
  · exact absurd hR (by omega)

theorem count_filterMap_zero {α β : Type} [DecidableEq β] {f : α → Option β}
    {l : List α} {b : β} (h : ∀ a ∈ l, f a ≠ some b) :
    (l.filterMap f).count b = 0 := by
  rw [List.count_eq_zero]
  intro hb
  obtain ⟨a, ha, hfa⟩ := List.mem_filterMap.mp hb
  exact h a ha hfa

/-- Claim C1 (counterexample): the claim states that regex-style rules apply
their flags against the original (non-lowered) path.  The source tests the
regex against `normalizedPath` (the lowered path): for the case-sensitive rule
`/^IMPORTANT\//` and the path `"IMPORTANT/plan.md"`, matching against the
original path (as the claim words it, modelled by `ruleMatchesOriginalPath`)
would return the rule, but `getFolderConfigForPath` returns `none`. -/
theorem claim1_counterexample :
    getFolderConfigForPath [caseSensitiveRegexRule] "IMPORTANT/plan.md" = none ∧
    List.find? (ruleMatchesOriginalPath "IMPORTANT/plan.md") [caseSensitiveRegexRule] =
      some caseSensitiveRegexRule ∧
    getFolderConfigForPath [caseSensitiveRegexRule] "IMPORTANT/plan.md" ≠
      List.find? (ruleMatchesOriginalPath "IMPORTANT/plan.md") [caseSensitiveRegexRule] := by
  refine ⟨rfl, rfl, ?_⟩
  intro h
  have h' : (none : Option FolderConfig) = some caseSensitiveRegexRule := h
  exact Option.noConfusion h'

/-- Claim C1 (amended): substring-style rules are matched after lowercasing
both the pattern text and the path, and regex-style rules are likewise applied
to the LOWERED path (not the original), so classification depends only on the
lowered path: classifying a path and classifying its lowercase form give the
same result for every rule list. -/
theorem claim1_classification_lowered (rules : List FolderConfig) (filePath : String) :
    getFolderConfigForPath rules filePath =
      getFolderConfigForPath rules (strToLower filePath) := by
  unfold getFolderConfigForPath
  rw [strToLower_strToLower]

/-- Claim C3: a span `[from,to]` is occupied by the selection iff
`selection.from` lies in `[from,to]`, or `selection.to` lies in `[from,to]`,
or the selection fully contains the span; the comparison is inclusive on both
ends, so a collapsed cursor sitting exactly at `from` or at `to` still reports
the span as occupied (hence the decoration is suppressed). -/
theorem claim3_cursor_in_range_iff (selection : SelectionRange) (from' to' : Nat)
    (h : from' ≤ to') :
    (isCursorInRange selection from' to' = true ↔
      (from' ≤ selection.from' ∧ selection.from' ≤ to') ∨
      (from' ≤ selection.to' ∧ selection.to' ≤ to') ∨
      (selection.from' ≤ from' ∧ to' ≤ selection.to')) ∧
    isCursorInRange ⟨from', from'⟩ from' to' = true ∧
    isCursorInRange ⟨to', to'⟩ from' to' = true := by
  refine ⟨?_, ?_, ?_⟩
  · simp only [isCursorInRange, Bool.or_eq_true, Bool.and_eq_true, decide_eq_true_eq,
      ge_iff_le]
    constructor
    · intro hcase
      omega
    · intro hcase
      omega
  · simp only [isCursorInRange, Bool.or_eq_true, Bool.and_eq_true, decide_eq_true_eq,
      ge_iff_le]
    omega
  · simp only [isCursorInRange, Bool.or_eq_true, Bool.and_eq_true, decide_eq_true_eq,
      ge_iff_le]
    omega

/-- Witness for claim C3 at a concrete input: the span `[2,5]` with a collapsed
cursor exactly at its start boundary is occupied. -/
theorem claim3_witness : 2 ≤ 5 ∧ isCursorInRange ⟨2, 2⟩ 2 5 = true :=
  ⟨by decide, (claim3_cursor_in_range_iff ⟨2, 2⟩ 2 5 (by decide)).2.1⟩

/-- Claim C4: the classifier iterates the rules in list order and returns the
first rule whose pattern matches (substring rules by lowered-substring
containment, regex rules by testing the lowered path), `none` when no rule
matches or the list is empty — i.e. it agrees with `List.find?` of the spec's
matching predicate, so at most one rule is returned and list order decides
ties.  (The code's rule records carry no `enabled` field: every rule present
in the list is enabled, disabled rules simply do not occur.) -/
theorem claim4_classifier_first_match (rules : List FolderConfig) (filePath : String) :
    getFolderConfigForPath rules filePath = rules.find? (ruleMatches filePath) := by
  unfold getFolderConfigForPath
  induction rules with
  | nil => rfl
  | cons config rest ih =>
    rw [List.find?_cons]
    rcases config with ⟨pat, em, cls⟩
    cases pat with
    | str s =>
      rw [classifyAux]
      dsimp only
      by_cases hs : strIncludes (strToLower filePath) (strToLower s) = true
      · rw [if_pos hs]
        have hp : ruleMatches filePath ⟨FolderPattern.str s, em, cls⟩ = true := by
          simp [ruleMatches, hs]
        rw [hp]
      · rw [if_neg hs]
        have hp : ruleMatches filePath ⟨FolderPattern.str s, em, cls⟩ = false := by
          cases hX : strIncludes (strToLower filePath) (strToLower s) with
          | true => exact absurd hX hs
          | false => simp [ruleMatches, hX]
        rw [hp]
        dsimp only
        exact ih
    | regex t =>
      rw [classifyAux]
      dsimp only
      by_cases hs : t (strToLower filePath) = true
      · rw [if_pos hs]
        have hp : ruleMatches filePath ⟨FolderPattern.regex t, em, cls⟩ = true := by
          simp [ruleMatches, hs]
        rw [hp]
      · rw [if_neg hs]
        have hp : ruleMatches filePath ⟨FolderPattern.regex t, em, cls⟩ = false := by
          cases hX : t (strToLower filePath) with
          | true => exact absurd hX hs
          | false => simp [ruleMatches, hX]
        rw [hp]
        dsimp only
        exact ih

/-- Claim C2 (scenario): for the line `Great job :+1: see [[important/plan]]`
with the shipped emoji map, a single enabled rule with pattern `"important"`
and marker 🚀, a resolver sending `important/plan` to `important/plan.md`, and
a collapsed selection at offset 0 (touching neither span), `build` emits
exactly two instructions: one `ReplaceSpan` over exactly the `:+1:` offsets
`[10,14)` carrying 👍, and one `InsertMarker` carrying 🚀 anchored at offset
37, the end of the `[[important/plan]]` span, with side = 1 (after). -/
theorem claim2_scenario :
    buildDecorations EMOJI_MAPPINGS
      [{ folderPattern := FolderPattern.str "important", emoji := "🚀", cssClass := none }]
      ⟨0, 0⟩
      (fun t => if t == "important/plan" then some "important/plan.md" else none)
      ["Great job :+1: see [[important/plan]]"] =
    [DecorationInstr.replaceSpan 10 14 "👍",
     DecorationInstr.insertMarker 37 "🚀" "folder-link-emoji" 1] := by
  simp [buildDecorations, buildDoc, buildLine, emojiPass, linkPass, emojiMatchAt,
    linkMatchAt, emojiClassChar, linkTargetChar, linkDisplayChar, emojiInstr, linkInstr,
    isCursorInRange, getFolderConfigForPath, classifyAux, strToLower, strIncludes,
    containsList, startsWithList, EMOJI_MAPPINGS, List.lookup, List.takeWhile]

/-- Claim C5: for every link match whose span is not occupied by the selection
and whose resolved path matches a classification rule, the link pass emits
exactly one instruction equal to an `InsertMarker` carrying that rule's marker,
anchored at the link's end offset with side 1 (after); and the link pass emits
only `InsertMarker` instructions — it never emits a replacement, so no
character of the link's own span is consumed. -/
theorem claim5_link_marker_unique (rules : List FolderConfig)
    (selection : SelectionRange) (resolveFilePath : String → Option String)
    (lineFrom : Nat) (text : String) (m : LinkMatch) (p : String) (cfg : FolderConfig)
    (hm : m ∈ linkScan text.data 0)
    (hc : isCursorInRange selection (lineFrom + m.idx) (lineFrom + m.idx + m.len) = false)
    (hr : resolveFilePath m.target = some p)
    (hcfg : getFolderConfigForPath rules p = some cfg) :
    (linkPass rules selection resolveFilePath lineFrom text.data 0).count
        (DecorationInstr.insertMarker (lineFrom + m.idx + m.len) cfg.emoji
          (cfg.cssClass.getD "folder-link-emoji") 1) = 1 ∧
    ∀ d ∈ linkPass rules selection resolveFilePath lineFrom text.data 0,
      ∃ pos e c s, d = DecorationInstr.insertMarker pos e c s := by
  have hinstr : linkInstr rules selection resolveFilePath lineFrom m =
      some (DecorationInstr.insertMarker (lineFrom + m.idx + m.len) cfg.emoji
        (cfg.cssClass.getD "folder-link-emoji") 1) := by
    simp [linkInstr, hc, hr, hcfg]
  constructor
  · rw [linkPass_eq_filterMap]
    obtain ⟨l₁, l₂, hsplit⟩ := List.append_of_mem hm
    have hpw := (linkScan_inv text.data 0).2
    rw [hsplit, List.pairwise_append] at hpw
    obtain ⟨hpw1, hpw2, hcross⟩ := hpw
    rw [List.pairwise_cons] at hpw2
    have hmlen : 5 ≤ m.len := by
      obtain ⟨_, _, hl, _, _⟩ := (linkScan_inv text.data 0).1 m hm
      exact hl
    rw [hsplit, List.filterMap_append, List.count_append, List.filterMap_cons, hinstr]
    have hz1 : (l₁.filterMap (linkInstr rules selection resolveFilePath lineFrom)).count
        (DecorationInstr.insertMarker (lineFrom + m.idx + m.len) cfg.emoji
          (cfg.cssClass.getD "folder-link-emoji") 1) = 0 := by
      refine count_filterMap_zero ?_
      intro a ha hfa
      obtain ⟨_, p', cfg', _, _, heq⟩ := linkInstr_some hfa
      injection heq with h1 h2 h3 h4
      have hrel : a.idx + a.len ≤ m.idx := hcross a ha m (List.mem_cons_self m l₂)
      omega
    have hz2 : (l₂.filterMap (linkInstr rules selection resolveFilePath lineFrom)).count
        (DecorationInstr.insertMarker (lineFrom + m.idx + m.len) cfg.emoji
          (cfg.cssClass.getD "folder-link-emoji") 1) = 0 := by
      refine count_filterMap_zero ?_
      intro b hb hfb
      obtain ⟨_, p', cfg', _, _, heq⟩ := linkInstr_some hfb
      injection heq with h1 h2 h3 h4
      have hrel : m.idx + m.len ≤ b.idx := hpw2.1 b hb
      have hblen : 5 ≤ b.len := by
        have hbmem : b ∈ linkScan text.data 0 := by
          rw [hsplit]
          exact List.mem_append.mpr (Or.inr (List.mem_cons.mpr (Or.inr hb)))
        obtain ⟨_, _, hl, _, _⟩ := (linkScan_inv text.data 0).1 b hbmem
        exact hl
      omega
    rw [hz1, List.count_cons_self, hz2]
  · intro d hd
    obtain ⟨m', hm', hinstr'⟩ := linkPass_mem.mp hd
    obtain ⟨_, p', cfg', _, _, rfl⟩ := linkInstr_some hinstr'
    exact ⟨_, _, _, _, rfl⟩

/-- Witness for claim C5: the line `see [[important/plan]]` with a rule on
`important`, a resolver sending the target to `important/plan.md`, and the
cursor at offset 0 yields exactly one marker instruction at offset 22. -/
theorem claim5_witness :
    (linkPass [⟨FolderPattern.str "important", "🚀", none⟩] ⟨0, 0⟩
        (fun t => if t == "important/plan" then some "important/plan.md" else none) 0
        "see [[important/plan]]".data 0).count
      (DecorationInstr.insertMarker 22 "🚀" "folder-link-emoji" 1) = 1 ∧
    ∀ d ∈ linkPass [⟨FolderPattern.str "important", "🚀", none⟩] ⟨0, 0⟩
        (fun t => if t == "important/plan" then some "important/plan.md" else none) 0
        "see [[important/plan]]".data 0,
      ∃ pos e c s, d = DecorationInstr.insertMarker pos e c s :=
  claim5_link_marker_unique
    [⟨FolderPattern.str "important", "🚀", none⟩]
    ⟨0, 0⟩ (fun t => if t == "important/plan" then some "important/plan.md" else none)
    0 "see [[important/plan]]" ⟨4, 18, "important/plan"⟩ "important/plan.md"
    ⟨FolderPattern.str "important", "🚀", none⟩
    (by simp [linkScan, linkMatchAt, linkTargetChar, linkDisplayChar])
    (by decide) (by decide) rfl

/-- Claim C6: for every document, selection, shortcode map, rule list and
resolver, no two instructions emitted by `build` have overlapping spans: the
replaced shortcode ranges are pairwise disjoint, no marker position lies
strictly inside a replaced range, and instructions of different lines live in
disjoint offset ranges.  The output is by construction the concatenation
(plain union) of the independent emoji and link passes of each line, with no
merge step. -/
theorem claim6_no_overlap (map : List (String × String)) (rules : List FolderConfig)
    (selection : SelectionRange) (resolveFilePath : String → Option String)
    (docLines : List String) :
    (buildDecorations map rules selection resolveFilePath docLines).Pairwise SpanDisjoint :=
  buildDoc_pairwise map rules selection resolveFilePath docLines 0

/-- Claim C7: a span matching the shortcode grammar whose token is not a key
of the map produces no decoration (no emitted instruction starts at its
offset) and no error, and the rest of the line is still processed (every
instruction any match of the line produces is in the output). -/
theorem claim7_unknown_token_skipped (map : List (String × String))
    (selection : SelectionRange) (lineFrom : Nat) (text : String) (m : EmojiMatch)
    (hm : m ∈ emojiScan text.data 0) (hunknown : map.lookup m.token = none) :
    (∀ d ∈ emojiPass map selection lineFrom text.data 0,
      instrLo d ≠ lineFrom + m.idx) ∧
    (∀ m' ∈ emojiScan text.data 0, ∀ d,
      emojiInstr map selection lineFrom m' = some d →
      d ∈ emojiPass map selection lineFrom text.data 0) := by
  constructor
  · intro d hd
    obtain ⟨m', hm', hinstr⟩ := emojiPass_mem.mp hd
    obtain ⟨e, hlook, _, rfl⟩ := emojiInstr_some hinstr
    simp only [instrLo]
    intro hEq
    have hidx : m'.idx = m.idx := by omega
    have heqm : m' = m := emojiScan_idx_inj hm' hm hidx
    rw [heqm, hunknown] at hlook
    cases hlook
  · intro m' hm' d hinstr
    exact emojiPass_mem.mpr ⟨m', hm', hinstr⟩

/-- Witness for claim C7: the line `:foo:` matches the shortcode grammar but
`:foo:` is not a key of the shipped map, so the pass emits nothing at its
offset. -/
theorem claim7_witness :
    (∀ d ∈ emojiPass EMOJI_MAPPINGS ⟨9, 9⟩ 0 ":foo:".data 0, instrLo d ≠ 0) ∧
    (∀ m' ∈ emojiScan ":foo:".data 0, ∀ d,
      emojiInstr EMOJI_MAPPINGS ⟨9, 9⟩ 0 m' = some d →
      d ∈ emojiPass EMOJI_MAPPINGS ⟨9, 9⟩ 0 ":foo:".data 0) :=
  claim7_unknown_token_skipped EMOJI_MAPPINGS ⟨9, 9⟩ 0 ":foo:" ⟨0, 5, ":foo:"⟩
    (by simp [emojiScan, emojiMatchAt, emojiClassChar]) (by decide)

/-- Claim C8: a link match whose span is not occupied and whose target the
resolver sends to `null` produces no decoration (no emitted instruction starts
at its anchor offset) and no error, and the remaining matches are still
processed. -/
theorem claim8_unresolved_link_skipped (rules : List FolderConfig)
    (selection : SelectionRange) (resolveFilePath : String → Option String)
    (lineFrom : Nat) (text : String) (m : LinkMatch)
    (hm : m ∈ linkScan text.data 0)
    (_hc : isCursorInRange selection (lineFrom + m.idx) (lineFrom + m.idx + m.len) = false)
    (hr : resolveFilePath m.target = none) :
    (∀ d ∈ linkPass rules selection resolveFilePath lineFrom text.data 0,
      instrLo d ≠ lineFrom + m.idx + m.len) ∧
    (∀ m' ∈ linkScan text.data 0, ∀ d,
      linkInstr rules selection resolveFilePath lineFrom m' = some d →
      d ∈ linkPass rules selection resolveFilePath lineFrom text.data 0) := by
  constructor
  · intro d hd
    obtain ⟨m', hm', hinstr⟩ := linkPass_mem.mp hd
    obtain ⟨_, p', cfg', hres, _, rfl⟩ := linkInstr_some hinstr
    simp only [instrLo]
    intro hEq
    have hend : m'.idx + m'.len = m.idx + m.len := by omega
    have heqm : m' = m := linkScan_end_inj hm' hm hend
    rw [heqm, hr] at hres
    cases hres
  · intro m' hm' d hinstr
    exact linkPass_mem.mpr ⟨m', hm', hinstr⟩

/-- Witness for claim C8: the line `[[x]]` with a resolver that returns `none`
for every target and the cursor away from the span yields no instruction at
the link's anchor offset 5. -/
theorem claim8_witness :
    (∀ d ∈ linkPass FOLDER_CONFIGURATIONS ⟨9, 9⟩ (fun _ => none) 0 "[[x]]".data 0,
      instrLo d ≠ 5) ∧
    (∀ m' ∈ linkScan "[[x]]".data 0, ∀ d,
      linkInstr FOLDER_CONFIGURATIONS ⟨9, 9⟩ (fun _ => none) 0 m' = some d →
      d ∈ linkPass FOLDER_CONFIGURATIONS ⟨9, 9⟩ (fun _ => none) 0 "[[x]]".data 0) :=
  claim8_unresolved_link_skipped FOLDER_CONFIGURATIONS ⟨9, 9⟩ (fun _ => none) 0 "[[x]]"
    ⟨0, 5, "x"⟩ (by simp [linkScan, linkMatchAt, linkTargetChar, linkDisplayChar])
    (by decide) rfl

/-- Claim C9 (counterexample): the claim states a rule whose slash-delimited
pattern body is regex-invalid is treated as never-matching, with a logged
warning.  The source never compiles string patterns: `/(/` (body `(` — invalid
regex syntax) is matched as a literal substring of the lowered path and the
rule MATCHES the path `Notes/(/x.md`; there is no catch or warning anywhere in
classification. -/
theorem claim9_counterexample :
    getFolderConfigForPath [malformedRegexStyleRule] "Notes/(/x.md" =
      some malformedRegexStyleRule := rfl

/-- Claim C9 (amended): string patterns — including slash-delimited text whose
body would be invalid regex syntax — are never compiled at classification
time; they are matched as literal substrings of the lowered path, and
classification is a total function: it returns a definite answer determined by
the substring test alone, never crashes, and has no warning/never-matching
fallback path.  (RegExp-valued patterns are pre-compiled literals, which
cannot be syntactically malformed at classification time.) -/
theorem claim9_string_patterns_never_compiled (s filePath e : String)
    (c : Option String) :
    getFolderConfigForPath [⟨FolderPattern.str s, e, c⟩] filePath =
      if strIncludes (strToLower filePath) (strToLower s) then
        some ⟨FolderPattern.str s, e, c⟩
      else none := by
  simp only [getFolderConfigForPath, classifyAux]

/-- Claim C10: the degenerate link forms `[[]]`, `[[|x]]` and `[[a|]]` are not
matched by the link grammar (the target before the optional pipe and the
display text after it must both be non-empty), so the scan of such a line
finds nothing, and the link pass emits no instruction for ANY resolver — in
particular the resolver is never consulted. -/
theorem claim10_degenerate_links :
    linkScan "[[]]".data 0 = [] ∧
    linkScan "[[|x]]".data 0 = [] ∧
    linkScan "[[a|]]".data 0 = [] ∧
    ∀ (rules : List FolderConfig) (selection : SelectionRange)
      (resolveFilePath : String → Option String) (lineFrom : Nat),
      linkPass rules selection resolveFilePath lineFrom "[[]]".data 0 = [] ∧
      linkPass rules selection resolveFilePath lineFrom "[[|x]]".data 0 = [] ∧
      linkPass rules selection resolveFilePath lineFrom "[[a|]]".data 0 = [] := by
  have h1 : linkScan "[[]]".data 0 = [] := by
    simp [linkScan, linkMatchAt, linkTargetChar, linkDisplayChar]
  have h2 : linkScan "[[|x]]".data 0 = [] := by
    simp [linkScan, linkMatchAt, linkTargetChar, linkDisplayChar]
  have h3 : linkScan "[[a|]]".data 0 = [] := by
    simp [linkScan, linkMatchAt, linkTargetChar, linkDisplayChar]
  refine ⟨h1, h2, h3, ?_⟩
  intro rules selection resolveFilePath lineFrom
  refine ⟨?_, ?_, ?_⟩
  · rw [linkPass_eq_filterMap, h1]
    rfl
  · rw [linkPass_eq_filterMap, h2]
    rfl
  · rw [linkPass_eq_filterMap, h3]
    rfl
